import Mathlib

/-!
Verification of the flatten-and-reconcile engine of the YAML loader nodes
(`YAMLLoaderNode` in `yaml_loader_node.py` and `NEW_YAMLLoaderNode` in
`new_yaml_loader_node.py`).

The Python code is shallowly embedded:

* YAML documents (the values returned by `yaml.safe_load`) become the mutual
  inductive `Doc` / `DocList` / `DocPairs`: scalars, ordered sequences and
  insertion-ordered mappings with string keys (the code applies `str(k)` to
  every key before use, so string keys are faithful for the traversed keys).
* Python `dict` construction and assignment (`dict(items)`, `d[k] = v`,
  dict comprehensions) become `pyDict` / `pyUpd` on association lists:
  a repeated key keeps its first position and takes its last value.
* `YAMLLoaderNode._flatten_yaml` becomes `flattenItems` / `flattenVal`
  (the raw `items` list) and `flattenYaml` (the final `dict(items)`).
* `YAMLLoaderNode.process` becomes `processYL` over an explicit `NodeState`
  (the parameter list, `parameter_output_values` and the status message).
  File IO and `yaml.safe_load` are external to the node; following the spec
  (§6, "Document source"), their outcome is passed in as a `LoadResult`.
* `NEW_YAMLLoaderNode.after_value_set` becomes `newPass` over `NewState`,
  including the `yaml_dictionary` / `yaml_list` instance fields.
* Raised Python exceptions become an `Option` of `PyErr` returned next to
  the mutated state (the state keeps the mutations made before the raise).
-/

set_option autoImplicit false

/- Documents: the values produced by `yaml.safe_load`, as traversed by the
nodes.  Scalars are strings, integers, booleans and `None`; containers are
sequences and insertion-ordered mappings. -/
mutual
inductive Doc where
  | str (v : String)
  | int (v : Int)
  | bool (v : Bool)
  | null
  | seq (xs : DocList)
  | map (kvs : DocPairs)

inductive DocList where
  | nil
  | cons (hd : Doc) (tl : DocList)

inductive DocPairs where
  | nil
  | cons (k : String) (v : Doc) (tl : DocPairs)
end

/-- Truthiness of a Python dict: `if self.yaml_dictionary:` is false exactly
on the empty dict. -/
def DocPairs.isNil : DocPairs → Bool
  | .nil => true
  | .cons _ _ _ => false

/-- Length of a Python list. -/
def DocList.length : DocList → Nat
  | .nil => 0
  | .cons _ tl => 1 + tl.length

/-- Positional access into a Python list (callers guard the bound; the
default is never reached under the guards used below). -/
def DocList.get : DocList → Nat → Doc
  | .nil, _ => .null
  | .cons d _, 0 => d
  | .cons _ tl, n + 1 => tl.get n

/-- Conversion of an embedded sequence to an ordinary list. -/
def DocList.toList : DocList → List Doc
  | .nil => []
  | .cons d tl => d :: tl.toList

/-- Conversion of an embedded mapping to an ordinary association list. -/
def DocPairs.toList : DocPairs → List (String × Doc)
  | .nil => []
  | .cons k v tl => (k, v) :: tl.toList

/-- Scalar test: true on the `Doc` constructors that are neither a mapping
nor a sequence. -/
def Doc.isScalar : Doc → Bool
  | .seq _ => false
  | .map _ => false
  | _ => true

/-- Container test: mappings and sequences. -/
def Doc.isContainer : Doc → Bool
  | .seq _ => true
  | .map _ => true
  | _ => false

/-- Mapping-root test, `isinstance(yaml_data, dict)`. -/
def Doc.isMap : Doc → Bool
  | .map _ => true
  | _ => false

/-- Sequence-root test, `isinstance(yaml_data, list)`. -/
def Doc.isSeq : Doc → Bool
  | .seq _ => true
  | _ => false

/-- Values Python accepts as a list index: integers and booleans. -/
def Doc.isIndexLike : Doc → Bool
  | .int _ => true
  | .bool _ => true
  | _ => false

/-- True when some element of the sequence is not usable as a list index. -/
def hasNonIndex : DocList → Bool
  | .nil => false
  | .cons d tl => !d.isIndexLike || hasNonIndex tl

/-- True when a string contains no space character. -/
def hasNoSpace (s : String) : Bool :=
  s.data.all (· != ' ')

/-- Python `str.replace(" ", "_")`: only the space character U+0020 is
replaced; the pattern is a single character, so a character-wise map is
exact. -/
def pyReplaceSpace (s : String) : String :=
  String.mk (s.data.map fun c => if c = ' ' then '_' else c)

/-- Python `str.lower()`, character-wise.  `Char.toLower` lowers the ASCII
range, which covers every key and filter the nodes handle here. -/
def pyLower (s : String) : String :=
  String.mk (s.data.map Char.toLower)

/-- Leading-match test on character lists: the first list occurs at the
start of the second. -/
def leadMatch : List Char → List Char → Bool
  | [], _ => true
  | _ :: _, [] => false
  | a :: as, b :: bs => a == b && leadMatch as bs

/-- Contiguous-occurrence test on character lists. -/
def subOccurs (needle : List Char) : List Char → Bool
  | [] => leadMatch needle []
  | c :: rest => leadMatch needle (c :: rest) || subOccurs needle rest

/-- Python `needle in hay` on strings: contiguous substring containment. -/
def pyInStr (needle hay : String) : Bool :=
  subOccurs needle.data hay.data

/-- Python dict assignment `d[k] = v` on an association list: an existing
key keeps its position and gets the new value, a new key is appended. -/
def pyUpd {α : Type} (d : List (String × α)) (k : String) (v : α) : List (String × α) :=
  if d.any fun p => p.1 == k then
    d.map fun p => if p.1 == k then (p.1, v) else p
  else d ++ [(k, v)]

/-- Python `dict(items)`: left fold of dict assignment over the pair list.
A repeated key keeps its first position and takes its last value. -/
def pyDict {α : Type} (l : List (String × α)) : List (String × α) :=
  l.foldl (fun acc kv => pyUpd acc kv.1 kv.2) []

/-- Sequence of dict assignments `d[k] = v`, as performed by the loops in
`process`. -/
def applyAll {α : Type} (u : List (String × α)) (d : List (String × α)) : List (String × α) :=
  u.foldl (fun acc kv => pyUpd acc kv.1 kv.2) d

/-- Inner loop of `_flatten_yaml` for a list item that is a dict: for each
`(sub_k, sub_v)` in the item, emit `(pre + normalized sub_k, sub_v)` with
the value appended as is (`items.append((list_key, sub_v))`). -/
def chunkPairs (pre : String) : DocPairs → List (String × Doc)
  | .nil => []
  | .cons k v tl => (pre ++ pyReplaceSpace k, v) :: chunkPairs pre tl

/-- List branch of `_flatten_yaml`: `for i, item in enumerate(v, 1)`.
A dict item contributes one entry per sub-pair under `newKey[i].subK`;
any other item is emitted directly under `newKey[i]`.  No recursion is
performed on either kind of item. -/
def seqChunk (newKey : String) : DocList → Nat → List (String × Doc)
  | .nil, _ => []
  | .cons d tl, i =>
    (match d with
     | .map kvs => chunkPairs (newKey ++ "[" ++ toString i ++ "].") kvs
     | other => [(newKey ++ "[" ++ toString i ++ "]", other)])
    ++ seqChunk newKey tl (i + 1)

/- Body of `YAMLLoaderNode._flatten_yaml`: `flattenItems` is the `items`
list accumulated over `data.items()`, `flattenVal` the per-value branch.
A dict value contributes `self._flatten_yaml(v, new_key, sep).items()`,
hence the inner `pyDict`; a list value contributes its `seqChunk`; any
other value is emitted under `new_key`. -/
mutual
def flattenItems : DocPairs → String → String → List (String × Doc)
  | .nil, _, _ => []
  | .cons k v tl, parent, sep =>
    let k2 := pyReplaceSpace k
    let newKey := if parent = "" then k2 else parent ++ sep ++ k2
    flattenVal v newKey sep ++ flattenItems tl parent sep

def flattenVal : Doc → String → String → List (String × Doc)
  | .map kvs, newKey, sep => pyDict (flattenItems kvs newKey sep)
  | .seq xs, newKey, _ => seqChunk newKey xs 1
  | v, newKey, _ => [(newKey, v)]
end

/-- Body of `YAMLLoaderNode._flatten_yaml(data)` with the default `parent_key` and
`sep`: the accumulated items converted by the final `return dict(items)`. -/
def flattenYaml (kvs : DocPairs) : List (String × Doc) :=
  pyDict (flattenItems kvs "" ".")

/-- Single-quote character, used by the Python `repr` of strings. -/
def qm : String := (Char.ofNat 39).toString

/-- Opening brace character of a Python dict display. -/
def lbr : String := (Char.ofNat 123).toString

/-- Closing brace character of a Python dict display. -/
def rbr : String := (Char.ofNat 125).toString

/- Python `repr` of a document, as used by `str` on containers.  The nodes
never branch on this text; it only feeds the string-valued output slots. -/
mutual
def pyRepr : Doc → String
  | .str s => qm ++ s ++ qm
  | .int n => toString n
  | .bool b => cond b "True" "False"
  | .null => "None"
  | .seq xs => "[" ++ pyReprList xs ++ "]"
  | .map kvs => lbr ++ pyReprPairs kvs ++ rbr

def pyReprList : DocList → String
  | .nil => ""
  | .cons d .nil => pyRepr d
  | .cons d tl => pyRepr d ++ ", " ++ pyReprList tl

def pyReprPairs : DocPairs → String
  | .nil => ""
  | .cons k v .nil => qm ++ k ++ qm ++ ": " ++ pyRepr v
  | .cons k v tl => qm ++ k ++ qm ++ ": " ++ pyRepr v ++ ", " ++ pyReprPairs tl
end

/-- Python `str(value)`, as applied before storing a slot value. -/
def pyStr : Doc → String
  | .str s => s
  | .int n => toString n
  | .bool b => cond b "True" "False"
  | .null => "None"
  | d => pyRepr d

/-- Modelled from the spec: the serialization back-end `yaml.dump` applied
to a flat mapping (§6, "Serialization back-end" — a deterministic textual
dump; the library itself is outside this repository).  The nodes only store
this text, they never branch on it. -/
def yamlDump (items : List (String × Doc)) : String :=
  items.foldr (fun p acc => p.1 ++ ": " ++ pyStr p.2 ++ "\n" ++ acc) ""

/-- Outcome of `open(yaml_file)` followed by `yaml.safe_load`.  Modelled
from the spec: the document source is external (§6) and can fail with a
file-not-found or a parse error, or produce a parsed document. -/
inductive LoadResult where
  | missing (msg : String)
  | parseError (msg : String)
  | ok (d : Doc)

/-- Python exceptions that the passes below can raise. -/
inductive PyErr where
  | fileNotFound (msg : String)
  | valueError (msg : String)
  | typeError (msg : String)
  | indexError (msg : String)
  | attributeError (msg : String)
  | exception (msg : String)
deriving DecidableEq, Repr

/-- Exception kinds the list-indexing slot loop can raise. -/
def PyErr.isLoopErr : PyErr → Bool
  | .typeError _ => true
  | .indexError _ => true
  | _ => false

/-- State of a `YAMLLoaderNode` instance: the names of its parameters in
creation order, `parameter_output_values`, and the status message stored in
`parameter_values["status_message"]` (empty when never written). -/
structure NodeState where
  params : List String
  outputValues : List (String × String)
  statusMessage : String
deriving DecidableEq, Repr

/-- Parameters created by `YAMLLoaderNode.__init__`, in order. -/
def initialState : NodeState :=
  ⟨["yaml_file", "key_filter", "yaml_data", "status_message"], [], ""⟩

/-- Fixed parameter names: the initial contents of `valid_parameter_names`
in `process` (the update in `_purge_old_parameters` re-adds three of them
and is a no-op). -/
def fixedNames : List String :=
  ["yaml_file", "yaml_data", "status_message", "key_filter"]

/-- Managed slots: every parameter other than the fixed four. -/
def managedNames (st : NodeState) : List String :=
  st.params.filter (· ∉ fixedNames)

/-- Body of `YAMLLoaderNode._purge_old_parameters` with the fixed valid
set it receives in `process`: every parameter whose name is not valid is
removed via the host registry (`remove_parameter_element`, modelled from
the spec §6 as removal from the parameter list) and reported. -/
def purgeOld (st : NodeState) : NodeState × List String :=
  ({ st with params := st.params.filter (· ∈ fixedNames) },
   st.params.filter (· ∉ fixedNames))

/-- Retention predicate of the filter step:
`key_filter.lower() in k.lower()`. -/
def keyKeep (filter k : String) : Bool :=
  pyInStr (pyLower filter) (pyLower k)

/-- Flatten-and-filter prefix of `process`: `_flatten_yaml(yaml_data)`
followed, when `key_filter` is truthy, by the dict comprehension
`{k: v for k, v in flattened_items.items() if key_filter.lower() in k.lower()}`. -/
def passEntries (kvs : DocPairs) (filter : String) : List (String × Doc) :=
  let flat := flattenYaml kvs
  if filter = "" then flat
  else pyDict (flat.filter fun p => keyKeep filter p.1)

/-- Collision loop of `process`: starting from `base_name` with
`counter = 1`, append `_counter` until the candidate is outside
`used_names`.  The fuel bounds the loop; `used.length + 1` candidates
always suffice because the candidates are pairwise distinct. -/
def resolveLoop (base : String) (used : List String) : String → Nat → Nat → String
  | current, _, 0 => current
  | current, counter, fuel + 1 =>
    if current ∈ used then
      resolveLoop base used (base ++ "_" ++ toString counter) (counter + 1) fuel
    else current

/-- Candidate slot name after collision resolution within one pass. -/
def resolveName (base : String) (used : List String) : String :=
  resolveLoop base used base 1 (used.length + 1)

/-- Create-or-update loop of `process` over the retained flattened items:
the candidate is `"output_" + key`, resolved against `used_names`; the
parameter is created when `does_name_exist` fails, and its output value is
set to `str(value)`.  Returns the updated state and the created names. -/
def syncLoop : List (String × Doc) → NodeState → List String → NodeState × List String
  | [], st, _ => (st, [])
  | (k, v) :: rest, st, used =>
    let name := resolveName ("output_" ++ k) used
    let created1 : List String := if name ∈ st.params then [] else [name]
    let st1 :=
      if name ∈ st.params then st
      else { st with params := st.params ++ [name] }
    let st2 := { st1 with outputValues := pyUpd st1.outputValues name (pyStr v) }
    let (st3, createdRest) := syncLoop rest st2 (used ++ [name])
    (st3, created1 ++ createdRest)

/-- Result of one `process` call: the final node state, the managed slots
created and deleted during the pass, and the exception re-raised to the
caller (`None` when the method returns normally). -/
structure PassOut where
  state : NodeState
  created : List String
  deleted : List String
  raised : Option String
deriving DecidableEq, Repr

/-- Body of `YAMLLoaderNode.process`.  `src` is the outcome of reading and parsing
`yaml_file` (`none` when `get_parameter_value("yaml_file")` is `None`),
`filter` the current `key_filter` (empty string for unset).  The mapping
branch flattens, filters, purges every non-fixed parameter, then creates
or updates one output parameter per retained entry, writes `yaml_data`,
and records the success status.  Load failures record an error status and
re-raise; a non-mapping root records an error status and returns. -/
def processYL (st : NodeState) (src : Option LoadResult) (filter : String) : PassOut :=
  match src with
  | none =>
    ⟨{ st with statusMessage := "No YAML file specified" }, [], [], none⟩
  | some (.missing m) =>
    ⟨{ st with statusMessage := "Error loading YAML file: " ++ m }, [], [], some m⟩
  | some (.parseError m) =>
    ⟨{ st with statusMessage := "Error loading YAML file: " ++ m }, [], [], some m⟩
  | some (.ok (.map kvs)) =>
    let items := passEntries kvs filter
    let purged := purgeOld st
    let synced := syncLoop items purged.1 []
    let st3 := { synced.1 with
      outputValues := pyUpd synced.1.outputValues "yaml_data" (yamlDump items) }
    ⟨{ st3 with statusMessage := "YAML file loaded successfully" },
     synced.2, purged.2, none⟩
  | some (.ok _) =>
    ⟨{ st with statusMessage := "YAML file must contain a dictionary at the root level" },
     [], [], none⟩

/-- Candidate slot names of one pass, in entry order (each resolves to its
own base because flattened keys are unique within a pass). -/
def desiredNames (kvs : DocPairs) (filter : String) : List String :=
  (passEntries kvs filter).map fun p => "output_" ++ p.1

/-- Output-value assignments performed by the mapping branch of `process`,
in order: one per retained entry, then the serialized `yaml_data`. -/
def allUpdates (kvs : DocPairs) (filter : String) : List (String × String) :=
  (passEntries kvs filter).map (fun p => ("output_" ++ p.1, pyStr p.2))
    ++ [("yaml_data", yamlDump (passEntries kvs filter))]

/-- Working value of `self.yaml_list` in `NEW_YAMLLoaderNode`: the field
holds a Python list after a sequence load and a dict after flattening. -/
inductive PyLD where
  | lst (xs : DocList)
  | dct (kvs : List (String × Doc))

/-- State of a `NEW_YAMLLoaderNode` instance: the two instance fields set
in `__init__`, the parameter names, the values stored through
`set_parameter_value`, and the status message. -/
structure NewState where
  yamlDictionary : DocPairs
  yamlList : PyLD
  params : List String
  paramValues : List (String × Doc)
  statusMessage : String

/-- State built by `NEW_YAMLLoaderNode.__init__`. -/
def initialNewState : NewState :=
  ⟨.nil, .lst .nil, ["yaml_file", "key_filter", "yaml_data", "status_message"], [], ""⟩

/-- Python list indexing `xs[item]` as performed by
`self.set_parameter_value(param_name, self.yaml_list[item])` on a list:
integers (and booleans, which index as 0/1) within `-len ≤ i < len`
succeed, out-of-range integers raise `IndexError`, anything else raises
`TypeError`. -/
def pyListIndex (xs : DocList) : Doc → Except PyErr Doc
  | .int n =>
    let len : Int := xs.length
    if 0 ≤ n ∧ n < len then .ok (xs.get n.toNat)
    else if -len ≤ n ∧ n < 0 then .ok (xs.get (n + len).toNat)
    else .error (.indexError "list index out of range")
  | .bool b =>
    let n : Nat := cond b 1 0
    if n < xs.length then .ok (xs.get n)
    else .error (.indexError "list index out of range")
  | _ => .error (.typeError "list indices must be integers or slices")

/-- Slot loop of `after_value_set` when `self.yaml_list` is a Python list:
`param_name = f"{index}_{item}"`, the parameter is created when absent,
then the value is read by `self.yaml_list[item]` — a raise aborts the loop
with the state mutated so far.  Returns the state, the names the loop
added to `valid_parameter_names`, and the pending exception. -/
def newListLoop (full : DocList) : DocList → Nat → NewState → NewState × List String × Option PyErr
  | .nil, _, st => (st, [], none)
  | .cons d tl, i, st =>
    let name := toString i ++ "_" ++ pyStr d
    let st1 :=
      if name ∈ st.params then st
      else { st with params := st.params ++ [name] }
    match pyListIndex full d with
    | .error e => (st1, [name], some e)
    | .ok v =>
      let st2 := { st1 with paramValues := pyUpd st1.paramValues name v }
      let next := newListLoop full tl (i + 1) st2
      (next.1, name :: next.2.1, next.2.2)

/-- Slot loop of `after_value_set` when `self.yaml_list` is a dict:
iteration yields the keys, `param_name = f"{index}_{item}"`, and the value
is the dict entry `self.yaml_list[item]` (the key comes from the dict, so
the lookup always succeeds; the default is never reached). -/
def newDictLoop (full : List (String × Doc)) : List (String × Doc) → Nat → NewState → NewState × List String
  | [], _, st => (st, [])
  | (k, _) :: rest, i, st =>
    let name := toString i ++ "_" ++ k
    let st1 :=
      if name ∈ st.params then st
      else { st with params := st.params ++ [name] }
    let v := ((full.lookup k).getD .null)
    let st2 := { st1 with paramValues := pyUpd st1.paramValues name v }
    let next := newDictLoop full rest (i + 1) st2
    (next.1, name :: next.2)

/-- Purge of `NEW_YAMLLoaderNode`: run after the slot loop, keeping the
fixed four names plus the names the loop recorded. -/
def newPurge (st : NewState) (valid : List String) : NewState :=
  { st with params := st.params.filter (· ∈ fixedNames ++ valid) }

/-- Modelled from the spec: the serialization back-end `yaml.dump` applied
to a Python list (§6; the library is outside this repository).  Only the
determinism of the text matters to the nodes. -/
def yamlDumpList : DocList → String
  | .nil => "[]\n"
  | .cons d tl => "- " ++ pyStr d ++ "\n" ++ yamlDumpList tl

/-- Serialization of the working value of `self.yaml_list`, whichever of
the two shapes it currently has. -/
def yamlDumpLD : PyLD → String
  | .lst xs => yamlDumpList xs
  | .dct kvs => yamlDump kvs

/-- Tail of `NEW_YAMLLoaderNode.after_value_set` once the document has
been loaded and stored into the instance fields: flatten the stored dict
when non-empty, filter (a dict comprehension over `self.yaml_list.items()`,
which raises `AttributeError` when the working value is a Python list),
serialize the working value into `yaml_data`, run the slot loop, then
purge stale parameters. -/
def afterLoad (st : NewState) (filter : String) : NewState × Option PyErr :=
  let stA :=
    if st.yamlDictionary.isNil then st
    else { st with yamlList := .dct (flattenYaml st.yamlDictionary) }
  match stA.yamlList with
  | .lst xs =>
    if filter = "" then
      let stB := { stA with
        paramValues := pyUpd stA.paramValues "yaml_data" (.str (yamlDumpLD (.lst xs))) }
      let looped := newListLoop xs xs 1 stB
      match looped.2.2 with
      | some e => (looped.1, some e)
      | none => (newPurge looped.1 looped.2.1, none)
    else (stA, some (.attributeError "list object has no attribute items"))
  | .dct kvs =>
    let kept :=
      if filter = "" then kvs
      else pyDict (kvs.filter fun p => keyKeep filter p.1)
    let stB := { stA with yamlList := .dct kept }
    let stC := { stB with
      paramValues := pyUpd stB.paramValues "yaml_data" (.str (yamlDumpLD (.dct kept))) }
    let looped := newDictLoop kept kept 1 stC
    (newPurge looped.1 looped.2, none)

/-- Body of `NEW_YAMLLoaderNode.after_value_set` for `yaml_file` / `key_filter`:
`_load_yaml_file` raises `FileNotFoundError` on a missing file and
`ValueError` on a parse failure (both raised from `except` clauses, so
they propagate); the `ValueError` it raises for a scalar root is itself
raised inside its `try`, caught by the final `except Exception` clause,
and re-raised as a generic `Exception` wrapping the original message.
None of these writes the status slot.  Otherwise the loaded document is
stored into `yaml_dictionary` (mapping) or `yaml_list` (sequence) and
`afterLoad` runs. -/
def newPass (st : NewState) (src : Option LoadResult) (filter : String) : NewState × Option PyErr :=
  match src with
  | none => ({ st with statusMessage := "No YAML file specified" }, none)
  | some (.missing m) =>
    (st, some (.fileNotFound ("The file " ++ m ++ " was not found.")))
  | some (.parseError m) =>
    (st, some (.valueError ("Error parsing YAML file: " ++ m)))
  | some (.ok (.map kvs)) => afterLoad { st with yamlDictionary := kvs } filter
  | some (.ok (.seq xs)) => afterLoad { st with yamlList := .lst xs } filter
  | some (.ok _) =>
    (st, some (.exception ("An unexpected error occurred while loading the YAML file: "
      ++ "YAML file must contain a dictionary or a list at the root level")))

/-- Example document with two raw keys that normalize to the same flattened
key: `{"x y": 1, "x_y": 2}`. -/
def exDup : DocPairs := .cons "x y" (.int 1) (.cons "x_y" (.int 2) .nil)

/-- Example document with a mapping nested below a sequence-element
mapping: `{"a": [{"x": {"y": 1}}]}`. -/
def exNest : DocPairs :=
  .cons "a" (.seq (.cons (.map (.cons "x" (.map (.cons "y" (.int 1) .nil)) .nil)) .nil)) .nil

/-- Example document for the filter property:
`{"Name": {"First": "A", "Last": "B"}, "Age": 30}`. -/
def exFilter : DocPairs :=
  .cons "Name" (.map (.cons "First" (.str "A") (.cons "Last" (.str "B") .nil)))
    (.cons "Age" (.int 30) .nil)

/-- Example document `{"a": 1}`. -/
def exA : DocPairs := .cons "a" (.int 1) .nil

/-! ## General lemmas about the embedded Python primitives -/

theorem strData_append (a b : String) : (a ++ b).data = a.data ++ b.data := by
  cases a
  cases b
  rfl

theorem strApp_left_cancel {a b c : String} (h : a ++ b = a ++ c) : b = c := by
  have h2 := congrArg String.data h
  rw [strData_append, strData_append] at h2
  have h3 := List.append_cancel_left h2
  cases b
  cases c
  exact congrArg String.mk (by simpa using h3)

theorem out_head (k : String) : ("output_" ++ k).data.head? = some 'o' := by
  cases k
  rfl

theorem out_ne_fixed (k : String) : ("output_" ++ k) ∉ fixedNames := by
  intro hmem
  have hh := out_head k
  have hall : ∀ s ∈ fixedNames, s.data.head? = some 'o' → False := by decide
  exact hall _ hmem hh

theorem mem_keys_iff_any {α : Type} (d : List (String × α)) (k : String) :
    (d.any fun p => p.1 == k) = true ↔ k ∈ d.map Prod.fst := by
  rw [List.any_eq_true]
  constructor
  · rintro ⟨p, hp, hpk⟩
    exact List.mem_map.2 ⟨p, hp, beq_iff_eq.1 hpk⟩
  · intro h
    obtain ⟨p, hp, hpk⟩ := List.mem_map.1 h
    exact ⟨p, hp, beq_iff_eq.2 hpk⟩

theorem pyUpd_keys_mem {α : Type} (d : List (String × α)) (k : String) (v : α)
    (h : k ∈ d.map Prod.fst) :
    (pyUpd d k v).map Prod.fst = d.map Prod.fst := by
  unfold pyUpd
  rw [if_pos ((mem_keys_iff_any d k).2 h)]
  rw [List.map_map]
  apply List.map_congr_left
  intro p _
  show (if p.1 == k then (p.1, v) else p).1 = p.1
  split <;> rfl

theorem pyUpd_keys_not_mem {α : Type} (d : List (String × α)) (k : String) (v : α)
    (h : k ∉ d.map Prod.fst) :
    (pyUpd d k v).map Prod.fst = d.map Prod.fst ++ [k] := by
  unfold pyUpd
  rw [if_neg]
  · simp
  · intro hc
    exact h ((mem_keys_iff_any d k).1 hc)

theorem pyUpd_keys_nodup {α : Type} (d : List (String × α)) (k : String) (v : α)
    (h : (d.map Prod.fst).Nodup) : ((pyUpd d k v).map Prod.fst).Nodup := by
  by_cases hk : k ∈ d.map Prod.fst
  · rw [pyUpd_keys_mem d k v hk]
    exact h
  · rw [pyUpd_keys_not_mem d k v hk]
    exact h.append (List.nodup_singleton k) (by simpa [List.disjoint_cons_right] using hk)

theorem pyDictRun_keys_nodup {α : Type} (l acc : List (String × α))
    (h : (acc.map Prod.fst).Nodup) :
    ((l.foldl (fun a kv => pyUpd a kv.1 kv.2) acc).map Prod.fst).Nodup := by
  induction l generalizing acc with
  | nil => exact h
  | cons hd tl ih =>
    exact ih (pyUpd acc hd.1 hd.2) (pyUpd_keys_nodup acc hd.1 hd.2 h)

theorem pyDict_keys_nodup {α : Type} (l : List (String × α)) :
    ((pyDict l).map Prod.fst).Nodup := by
  exact pyDictRun_keys_nodup l [] (by simp)

theorem pyDictRun_eq_of_nodup {α : Type} (l acc : List (String × α))
    (h : ((acc ++ l).map Prod.fst).Nodup) :
    l.foldl (fun a kv => pyUpd a kv.1 kv.2) acc = acc ++ l := by
  induction l generalizing acc with
  | nil => simp
  | cons hd tl ih =>
    have hk : hd.1 ∉ acc.map Prod.fst := by
      intro hc
      rw [List.map_append] at h
      have := (List.disjoint_of_nodup_append h) hc
      simp at this
    have hcond : ¬ (acc.any fun p => p.1 == hd.1) = true := by
      intro hc
      exact hk ((mem_keys_iff_any acc hd.1).1 hc)
    have hstep : pyUpd acc hd.1 hd.2 = acc ++ [hd] := by
      unfold pyUpd
      rw [if_neg hcond]
    rw [List.foldl_cons, hstep, ih (acc ++ [hd]) (by simpa using h)]
    simp

theorem pyDict_eq_of_nodup {α : Type} (l : List (String × α))
    (h : (l.map Prod.fst).Nodup) : pyDict l = l := by
  have := pyDictRun_eq_of_nodup l [] (by simpa using h)
  simpa [pyDict] using this

theorem pyUpd_allval {α : Type} (d : List (String × α)) (k : String) (v : α) :
    ∀ p ∈ pyUpd d k v, p.1 = k → p.2 = v := by
  unfold pyUpd
  split
  · intro p hp hpk
    obtain ⟨q, hq, hqe⟩ := List.mem_map.1 hp
    by_cases hqk : (q.1 == k) = true
    · rw [if_pos hqk] at hqe
      rw [← hqe]
    · rw [if_neg hqk] at hqe
      exact absurd (beq_iff_eq.2 (hqe ▸ hpk)) hqk
  · intro p hp hpk
    rcases List.mem_append.1 hp with hd | hs
    · rename_i hany
      exact absurd ((mem_keys_iff_any d k).2 (hpk ▸ List.mem_map_of_mem Prod.fst hd)) hany
    · rw [List.mem_singleton] at hs
      rw [hs]

theorem pyUpd_mem_key {α : Type} (d : List (String × α)) (k : String) (v : α) :
    k ∈ (pyUpd d k v).map Prod.fst := by
  by_cases hk : k ∈ d.map Prod.fst
  · rw [pyUpd_keys_mem d k v hk]
    exact hk
  · rw [pyUpd_keys_not_mem d k v hk]
    simp

theorem pyUpd_keys_mono {α : Type} (d : List (String × α)) (k : String) (v : α)
    (k2 : String) (h : k2 ∈ d.map Prod.fst) : k2 ∈ (pyUpd d k v).map Prod.fst := by
  by_cases hk : k ∈ d.map Prod.fst
  · rw [pyUpd_keys_mem d k v hk]
    exact h
  · rw [pyUpd_keys_not_mem d k v hk]
    exact List.mem_append_left _ h

theorem pyUpd_preserves_allval {α : Type} (d : List (String × α)) (k1 : String) (v1 : α)
    (k : String) (v : α) (hne : k ≠ k1) (h : ∀ p ∈ d, p.1 = k → p.2 = v) :
    ∀ p ∈ pyUpd d k1 v1, p.1 = k → p.2 = v := by
  unfold pyUpd
  split
  · intro p hp hpk
    obtain ⟨q, hq, hqe⟩ := List.mem_map.1 hp
    by_cases hqk : (q.1 == k1) = true
    · rw [if_pos hqk] at hqe
      rw [← hqe] at hpk
      exact absurd (hpk ▸ beq_iff_eq.1 hqk) hne
    · rw [if_neg hqk] at hqe
      subst hqe
      exact h q hq hpk
  · intro p hp hpk
    rcases List.mem_append.1 hp with hd | hs
    · exact h p hd hpk
    · rw [List.mem_singleton] at hs
      rw [hs] at hpk
      exact absurd hpk.symm hne

theorem applyAll_nil {α : Type} (d : List (String × α)) : applyAll [] d = d := rfl

theorem applyAll_cons {α : Type} (u1 : String × α) (u : List (String × α))
    (d : List (String × α)) : applyAll (u1 :: u) d = applyAll u (pyUpd d u1.1 u1.2) := rfl

theorem applyAll_append {α : Type} (u w d : List (String × α)) :
    applyAll (u ++ w) d = applyAll w (applyAll u d) := by
  unfold applyAll
  exact List.foldl_append _ _ _ _

theorem applyAll_preserves_allval {α : Type} (u : List (String × α)) (d : List (String × α))
    (k : String) (v : α) (hk : k ∉ u.map Prod.fst) (h : ∀ p ∈ d, p.1 = k → p.2 = v) :
    ∀ p ∈ applyAll u d, p.1 = k → p.2 = v := by
  induction u generalizing d with
  | nil => exact h
  | cons u1 u' ih =>
    rw [applyAll_cons]
    have hne : k ≠ u1.1 := by
      intro hc
      exact hk (hc ▸ List.mem_map_of_mem Prod.fst (List.mem_cons_self u1 u'))
    exact ih (pyUpd d u1.1 u1.2)
      (fun hc => hk (List.map_cons Prod.fst u1 u' ▸ List.mem_cons_of_mem _ hc))
      (pyUpd_preserves_allval d u1.1 u1.2 k v hne h)

theorem applyAll_keys_mono {α : Type} (u : List (String × α)) (d : List (String × α))
    (k2 : String) (h : k2 ∈ d.map Prod.fst) : k2 ∈ (applyAll u d).map Prod.fst := by
  induction u generalizing d with
  | nil => exact h
  | cons u1 u' ih =>
    rw [applyAll_cons]
    exact ih (pyUpd d u1.1 u1.2) (pyUpd_keys_mono d u1.1 u1.2 k2 h)

theorem applyAll_establishes {α : Type} (u : List (String × α)) (d : List (String × α))
    (hu : (u.map Prod.fst).Nodup) :
    ∀ q ∈ u, (∀ p ∈ applyAll u d, p.1 = q.1 → p.2 = q.2) ∧ q.1 ∈ (applyAll u d).map Prod.fst := by
  induction u generalizing d with
  | nil => intro q hq; exact absurd hq (List.not_mem_nil q)
  | cons u1 u' ih =>
    intro q hq
    rw [List.map_cons] at hu
    have hhead : u1.1 ∉ u'.map Prod.fst := (List.nodup_cons.1 hu).1
    have htail : (u'.map Prod.fst).Nodup := (List.nodup_cons.1 hu).2
    rw [applyAll_cons]
    rcases List.mem_cons.1 hq with hq1 | hq'
    · subst hq1
      constructor
      · exact applyAll_preserves_allval u' (pyUpd d q.1 q.2) q.1 q.2 hhead
          (pyUpd_allval d q.1 q.2)
      · exact applyAll_keys_mono u' (pyUpd d q.1 q.2) q.1 (pyUpd_mem_key d q.1 q.2)
    · exact ih (pyUpd d u1.1 u1.2) htail q hq'

theorem pyUpd_eq_self {α : Type} (d : List (String × α)) (k : String) (v : α)
    (hmem : k ∈ d.map Prod.fst) (hav : ∀ p ∈ d, p.1 = k → p.2 = v) :
    pyUpd d k v = d := by
  unfold pyUpd
  rw [if_pos ((mem_keys_iff_any d k).2 hmem)]
  conv_rhs => rw [← List.map_id d]
  apply List.map_congr_left
  intro p hp
  by_cases hpk : (p.1 == k) = true
  · rw [if_pos hpk]
    have := hav p hp (beq_iff_eq.1 hpk)
    rw [← this]
    rfl
  · rw [if_neg hpk]
    rfl

theorem applyAll_eq_self {α : Type} (u : List (String × α)) (d : List (String × α))
    (h : ∀ q ∈ u, (∀ p ∈ d, p.1 = q.1 → p.2 = q.2) ∧ q.1 ∈ d.map Prod.fst) :
    applyAll u d = d := by
  induction u with
  | nil => rfl
  | cons u1 u' ih =>
    rw [applyAll_cons]
    have h1 := h u1 (List.mem_cons_self u1 u')
    rw [pyUpd_eq_self d u1.1 u1.2 h1.2 h1.1]
    exact ih fun q hq => h q (List.mem_cons_of_mem u1 hq)

theorem applyAll_idem {α : Type} (u : List (String × α)) (d : List (String × α))
    (hu : (u.map Prod.fst).Nodup) : applyAll u (applyAll u d) = applyAll u d :=
  applyAll_eq_self u (applyAll u d) (applyAll_establishes u d hu)

theorem resolveName_not_mem (base : String) (used : List String) (h : base ∉ used) :
    resolveName base used = base := by
  unfold resolveName
  rw [resolveLoop]
  rw [if_neg h]

theorem passEntries_keys_nodup (kvs : DocPairs) (f : String) :
    ((passEntries kvs f).map Prod.fst).Nodup := by
  unfold passEntries
  by_cases hf : f = ""
  · rw [if_pos hf]
    exact pyDict_keys_nodup _
  · rw [if_neg hf]
    exact pyDict_keys_nodup _

theorem desiredNames_nodup (kvs : DocPairs) (f : String) : (desiredNames kvs f).Nodup := by
  unfold desiredNames
  have hcomp : ((passEntries kvs f).map fun p => "output_" ++ p.1)
      = ((passEntries kvs f).map Prod.fst).map fun k => "output_" ++ k := by
    rw [List.map_map]
    rfl
  rw [hcomp]
  exact (passEntries_keys_nodup kvs f).map fun a b hab => strApp_left_cancel hab

theorem desiredNames_not_fixed (kvs : DocPairs) (f : String) :
    ∀ n ∈ desiredNames kvs f, n ∉ fixedNames := by
  intro n hn
  obtain ⟨p, _, hpe⟩ := List.mem_map.1 hn
  exact hpe ▸ out_ne_fixed p.1

theorem syncLoop_spec : ∀ (items : List (String × Doc)) (st : NodeState) (used : List String),
    (items.map fun p => "output_" ++ p.1).Nodup →
    (∀ p ∈ items, ("output_" ++ p.1) ∉ st.params) →
    (∀ p ∈ items, ("output_" ++ p.1) ∉ used) →
    syncLoop items st used =
      ({ params := st.params ++ items.map fun p => "output_" ++ p.1,
         outputValues := applyAll (items.map fun p => ("output_" ++ p.1, pyStr p.2)) st.outputValues,
         statusMessage := st.statusMessage },
       items.map fun p => "output_" ++ p.1) := by
  intro items
  induction items with
  | nil =>
    intro st used _ _ _
    simp [syncLoop, applyAll]
  | cons hd rest ih =>
    intro st used hnd hst hused
    obtain ⟨k, v⟩ := hd
    have hbase_used : ("output_" ++ k) ∉ used := hused (k, v) (List.mem_cons_self _ _)
    have hbase_st : ("output_" ++ k) ∉ st.params := hst (k, v) (List.mem_cons_self _ _)
    have hname := resolveName_not_mem ("output_" ++ k) used hbase_used
    rw [List.map_cons] at hnd
    have hhead : ("output_" ++ k) ∉ rest.map fun p => "output_" ++ p.1 :=
      (List.nodup_cons.1 hnd).1
    have htail : (rest.map fun p => "output_" ++ p.1).Nodup := (List.nodup_cons.1 hnd).2
    show syncLoop ((k, v) :: rest) st used = _
    rw [syncLoop]
    simp only [hname, if_neg hbase_st]
    have hih := ih
      { st with params := st.params ++ ["output_" ++ k],
                outputValues := pyUpd st.outputValues ("output_" ++ k) (pyStr v) }
      (used ++ ["output_" ++ k])
      htail
      (by
        intro p hp
        intro hc
        rcases List.mem_append.1 hc with hin | hone
        · exact hst p (List.mem_cons_of_mem _ hp) hin
        · rw [List.mem_singleton] at hone
          exact hhead (hone ▸ List.mem_map_of_mem (fun p => "output_" ++ p.1) hp))
      (by
        intro p hp
        intro hc
        rcases List.mem_append.1 hc with hin | hone
        · exact hused p (List.mem_cons_of_mem _ hp) hin
        · rw [List.mem_singleton] at hone
          exact hhead (hone ▸ List.mem_map_of_mem (fun p => "output_" ++ p.1) hp))
    rw [hih]
    simp [applyAll_cons]

theorem filter_mem_then_not (l : List String) :
    (l.filter (· ∈ fixedNames)).filter (· ∉ fixedNames) = [] := by
  induction l with
  | nil => rfl
  | cons a l ih =>
    by_cases ha : a ∈ fixedNames <;> simp [ha, ih]

theorem filter_mem_idem (l : List String) :
    (l.filter (· ∈ fixedNames)).filter (· ∈ fixedNames) = l.filter (· ∈ fixedNames) := by
  induction l with
  | nil => rfl
  | cons a l ih =>
    by_cases ha : a ∈ fixedNames <;> simp [ha, ih]

theorem filter_not_of_none_fixed (names : List String) (h : ∀ n ∈ names, n ∉ fixedNames) :
    names.filter (· ∉ fixedNames) = names := by
  apply List.filter_eq_self.mpr
  intro a ha
  simpa using h a ha

theorem filter_mem_of_none_fixed (names : List String) (h : ∀ n ∈ names, n ∉ fixedNames) :
    names.filter (· ∈ fixedNames) = [] := by
  induction names with
  | nil => rfl
  | cons a l ih =>
    have ha := h a (List.mem_cons_self a l)
    simp only [List.filter_cons]
    rw [if_neg (by simpa using ha)]
    exact ih fun n hn => h n (List.mem_cons_of_mem a hn)

theorem processYL_map_spec (st : NodeState) (kvs : DocPairs) (f : String) :
    processYL st (some (.ok (.map kvs))) f =
      ⟨{ params := st.params.filter (· ∈ fixedNames) ++ desiredNames kvs f,
         outputValues := applyAll (allUpdates kvs f) st.outputValues,
         statusMessage := "YAML file loaded successfully" },
       desiredNames kvs f,
       st.params.filter (· ∉ fixedNames),
       none⟩ := by
  have hnodup : ((passEntries kvs f).map fun p => "output_" ++ p.1).Nodup :=
    desiredNames_nodup kvs f
  have hsync := syncLoop_spec (passEntries kvs f)
    { params := st.params.filter (· ∈ fixedNames),
      outputValues := st.outputValues,
      statusMessage := st.statusMessage }
    []
    hnodup
    (by
      intro p _ hc
      rw [List.mem_filter] at hc
      exact out_ne_fixed p.1 (by simpa using hc.2))
    (by intro p _ hc; exact absurd hc (List.not_mem_nil _))
  show processYL st (some (.ok (.map kvs))) f = _
  rw [processYL]
  simp only [purgeOld]
  rw [hsync]
  unfold allUpdates
  rw [applyAll_append]
  rfl

theorem allUpdates_keys_nodup (kvs : DocPairs) (f : String) :
    ((allUpdates kvs f).map Prod.fst).Nodup := by
  unfold allUpdates
  rw [List.map_append]
  have h1 : ((passEntries kvs f).map fun p => ("output_" ++ p.1, pyStr p.2)).map Prod.fst
      = desiredNames kvs f := by
    rw [List.map_map]
    rfl
  rw [h1]
  have h2 : ([("yaml_data", yamlDump (passEntries kvs f))].map Prod.fst)
      = ["yaml_data"] := rfl
  rw [h2]
  refine (desiredNames_nodup kvs f).append (List.nodup_singleton _) ?_
  intro n hn hn2
  rw [List.mem_singleton] at hn2
  have := desiredNames_not_fixed kvs f n hn
  rw [hn2] at this
  exact this (by decide)

theorem processYL_params_twice (stp : List String) (kvs : DocPairs) (f : String) :
    (stp.filter (· ∈ fixedNames) ++ desiredNames kvs f).filter (· ∈ fixedNames)
      = stp.filter (· ∈ fixedNames) := by
  rw [List.filter_append, filter_mem_idem,
    filter_mem_of_none_fixed _ (desiredNames_not_fixed kvs f), List.append_nil]

theorem processYL_managed_twice (stp : List String) (kvs : DocPairs) (f : String) :
    (stp.filter (· ∈ fixedNames) ++ desiredNames kvs f).filter (· ∉ fixedNames)
      = desiredNames kvs f := by
  rw [List.filter_append, filter_mem_then_not,
    filter_not_of_none_fixed _ (desiredNames_not_fixed kvs f), List.nil_append]

/-- C3 (amended): running the mapping branch of `process` twice with the
same document and filter reproduces the identical node state (same managed
names, same slot values, same status), and the second call reports the full
desired-name set both as created and as deleted — every managed slot is
purged and recreated, not zero churn. -/
theorem c3_second_pass_same_state (st : NodeState) (kvs : DocPairs) (f : String) :
    (processYL (processYL st (some (.ok (.map kvs))) f).state (some (.ok (.map kvs))) f).state
        = (processYL st (some (.ok (.map kvs))) f).state
    ∧ (processYL st (some (.ok (.map kvs))) f).created = desiredNames kvs f
    ∧ (processYL (processYL st (some (.ok (.map kvs))) f).state (some (.ok (.map kvs))) f).created
        = desiredNames kvs f
    ∧ (processYL (processYL st (some (.ok (.map kvs))) f).state (some (.ok (.map kvs))) f).deleted
        = desiredNames kvs f := by
  rw [processYL_map_spec st kvs f]
  rw [processYL_map_spec _ kvs f]
  refine ⟨?_, rfl, rfl, ?_⟩
  · simp only [NodeState.mk.injEq]
    refine ⟨?_, ?_, trivial⟩
    · show (st.params.filter (· ∈ fixedNames) ++ desiredNames kvs f).filter (· ∈ fixedNames)
          ++ desiredNames kvs f = _
      rw [processYL_params_twice]
    · exact applyAll_idem _ _ (allUpdates_keys_nodup kvs f)
  · show (st.params.filter (· ∈ fixedNames) ++ desiredNames kvs f).filter (· ∉ fixedNames) = _
    exact processYL_managed_twice st.params kvs f

/-- C3 (counterexample): with the document `{"a": 1}` loaded twice, the
second `process` call deletes and recreates the managed slot `output_a`,
so it does not report zero created and zero deleted slots. -/
theorem c3_second_pass_churn_cx :
    (processYL (processYL initialState (some (.ok (.map exA))) "").state
        (some (.ok (.map exA))) "").created = ["output_a"]
    ∧ (processYL (processYL initialState (some (.ok (.map exA))) "").state
        (some (.ok (.map exA))) "").deleted = ["output_a"]
    ∧ (["output_a"] : List String) ≠ [] := by
  exact ⟨by decide, by decide, by decide⟩

/-- C5 (amended): within one pass the candidate slot names are unique, so
the collision loop never appends a suffix: the created slots are exactly
`output_<key>` for the retained flattened keys, with no `_1`, `_2`, …
names. -/
theorem c5_names_no_suffix (st : NodeState) (kvs : DocPairs) (f : String) :
    (processYL st (some (.ok (.map kvs))) f).created = desiredNames kvs f
    ∧ (desiredNames kvs f).Nodup := by
  constructor
  · rw [processYL_map_spec]
  · exact desiredNames_nodup kvs f

/-- C5 (counterexample): the document `{"x y": 1, "x_y": 2}` produces two
flattened entries with the same key `x_y`, yet the pass creates a single
managed slot `output_x_y` — not two slots `item` and `item_1`-style, since
`dict(items)` already merged the colliding entries before naming. -/
theorem c5_collision_merged_cx :
    (flattenItems exDup "" ".").map Prod.fst = ["x_y", "x_y"]
    ∧ managedNames (processYL initialState (some (.ok (.map exDup))) "").state
        = ["output_x_y"] := by
  exact ⟨by decide, by decide⟩

/-- C6 (confirmed): after a successful mapping pass the managed slot names
are exactly the final names produced by that pass, and the four fixed
slots are still present. -/
theorem c6_managed_equals_desired (st : NodeState) (kvs : DocPairs) (f : String)
    (hfix : ∀ n ∈ fixedNames, n ∈ st.params) :
    managedNames (processYL st (some (.ok (.map kvs))) f).state = desiredNames kvs f
    ∧ ∀ n ∈ fixedNames, n ∈ (processYL st (some (.ok (.map kvs))) f).state.params := by
  rw [processYL_map_spec]
  constructor
  · exact processYL_managed_twice st.params kvs f
  · intro n hn
    exact List.mem_append_left _ (List.mem_filter.2 ⟨hfix n hn, by simpa using hn⟩)

/-- C6 (witness): the invariant instantiated at the freshly constructed
node and the document `{"a": 1}`. -/
theorem c6_managed_equals_desired_witness :
    (∀ n ∈ fixedNames, n ∈ initialState.params)
    ∧ (managedNames (processYL initialState (some (.ok (.map exA))) "").state
          = desiredNames exA ""
       ∧ ∀ n ∈ fixedNames, n ∈ (processYL initialState (some (.ok (.map exA))) "").state.params) :=
  ⟨by decide, c6_managed_equals_desired initialState exA "" (by decide)⟩

/-- C8 (confirmed): with a non-empty filter the retained entries of a pass
are exactly the flattened entries whose key contains the filter as a
case-insensitive substring (the dict comprehension adds nothing beyond the
filter, because flattened keys are unique); on the example document the
filter `name` retains `Name.First` and `Name.Last` but not `Age`. -/
theorem c8_filter_substring (kvs : DocPairs) (f : String) (hf : f ≠ "") :
    passEntries kvs f = (flattenYaml kvs).filter (fun p => keyKeep f p.1)
    ∧ (passEntries exFilter "name").map Prod.fst = ["Name.First", "Name.Last"] := by
  constructor
  · unfold passEntries
    rw [if_neg hf]
    apply pyDict_eq_of_nodup
    have hk : ((flattenYaml kvs).map Prod.fst).Nodup := by
      unfold flattenYaml
      exact pyDict_keys_nodup _
    exact hk.sublist ((List.filter_sublist _).map Prod.fst)
  · decide

/-- C8 (witness): the theorem applied to the example document and the
non-empty filter `name`. -/
theorem c8_filter_substring_witness :
    ("name" : String) ≠ ""
    ∧ (passEntries exFilter "name"
          = (flattenYaml exFilter).filter (fun p => keyKeep "name" p.1)
       ∧ (passEntries exFilter "name").map Prod.fst = ["Name.First", "Name.Last"]) :=
  ⟨by decide, c8_filter_substring exFilter "name" (by decide)⟩

/-- C4 (amended): on a file-not-found or parse error, `process` writes the
error status, changes nothing else, and re-raises; on a non-mapping root it
writes the error status, changes nothing else, and returns without
re-raising.  In `NEW_YAMLLoaderNode`, load errors propagate without
touching the state at all (no status message is written). -/
theorem c4_error_paths (st : NodeState) (st2 : NewState) (f m : String) (d : Doc)
    (hd : d.isMap = false) :
    processYL st (some (.missing m)) f
        = ⟨{ st with statusMessage := "Error loading YAML file: " ++ m }, [], [], some m⟩
    ∧ processYL st (some (.parseError m)) f
        = ⟨{ st with statusMessage := "Error loading YAML file: " ++ m }, [], [], some m⟩
    ∧ processYL st (some (.ok d)) f
        = ⟨{ st with statusMessage := "YAML file must contain a dictionary at the root level" },
           [], [], none⟩
    ∧ newPass st2 (some (.missing m)) f
        = (st2, some (.fileNotFound ("The file " ++ m ++ " was not found.")))
    ∧ newPass st2 (some (.parseError m)) f
        = (st2, some (.valueError ("Error parsing YAML file: " ++ m))) := by
  refine ⟨rfl, rfl, ?_, rfl, rfl⟩
  cases d with
  | map kvs => exact absurd hd (by simp [Doc.isMap])
  | str v => rfl
  | int v => rfl
  | bool v => rfl
  | null => rfl
  | seq xs => rfl

/-- C4 (counterexample): a pass whose root is the scalar `7` records the
root-type error status and leaves the registry untouched, but `process`
returns normally — the error is not re-signaled to the caller. -/
theorem c4_root_error_no_reraise_cx :
    (processYL initialState (some (.ok (.int 7))) "").raised = none
    ∧ (processYL initialState (some (.ok (.int 7))) "").state.statusMessage
        = "YAML file must contain a dictionary at the root level"
    ∧ (processYL initialState (some (.ok (.int 7))) "").state.params = initialState.params
    ∧ (processYL initialState (some (.ok (.int 7))) "").state.outputValues
        = initialState.outputValues := by
  exact ⟨by decide, by decide, by decide, by decide⟩

/-- C4 (witness): the amended failure semantics at the fresh node states,
message `f.yaml`, and the scalar root `7`. -/
theorem c4_error_paths_witness :
    Doc.isMap (.int 7) = false
    ∧ (processYL initialState (some (.missing "f.yaml")) ""
          = ⟨{ initialState with statusMessage := "Error loading YAML file: " ++ "f.yaml" },
             [], [], some "f.yaml"⟩
       ∧ processYL initialState (some (.parseError "f.yaml")) ""
          = ⟨{ initialState with statusMessage := "Error loading YAML file: " ++ "f.yaml" },
             [], [], some "f.yaml"⟩
       ∧ processYL initialState (some (.ok (.int 7))) ""
          = ⟨{ initialState with
                statusMessage := "YAML file must contain a dictionary at the root level" },
             [], [], none⟩
       ∧ newPass initialNewState (some (.missing "f.yaml")) ""
          = (initialNewState, some (.fileNotFound ("The file " ++ "f.yaml" ++ " was not found.")))
       ∧ newPass initialNewState (some (.parseError "f.yaml")) ""
          = (initialNewState, some (.valueError ("Error parsing YAML file: " ++ "f.yaml")))) :=
  ⟨by decide, c4_error_paths initialState initialNewState "" "f.yaml" (.int 7) (by decide)⟩

/-- C1 (amended): within one flattening pass the returned keys are unique —
`dict(items)` deduplicates colliding keys (first position, last value)
instead of keeping both entries. -/
theorem c1_flatten_keys_unique (kvs : DocPairs) : ((flattenYaml kvs).map Prod.fst).Nodup := by
  unfold flattenYaml
  exact pyDict_keys_nodup _

/-- C1 (counterexample): flattening `{"x y": 1, "x_y": 2}` accumulates two
entries for the key `x_y`, but the returned `FlatResult` keeps only one,
with the later value `2` — the flattener does deduplicate. -/
theorem c1_flatten_dedup_cx :
    (flattenItems exDup "" ".").map Prod.fst = ["x_y", "x_y"]
    ∧ (flattenYaml exDup).map Prod.fst = ["x_y"]
    ∧ (flattenYaml exDup).map (fun p => pyStr p.2) = ["2"] := by
  exact ⟨by decide, by decide, by decide⟩

theorem chunkPairs_toList (pre : String) : ∀ kvs : DocPairs,
    chunkPairs pre kvs = kvs.toList.map fun q => (pre ++ pyReplaceSpace q.1, q.2)
  | .nil => rfl
  | .cons k v tl => by
    rw [chunkPairs, DocPairs.toList, List.map_cons, chunkPairs_toList pre tl]

theorem seqChunk_enum (key : String) : ∀ (xs : DocList) (i : Nat),
    seqChunk key xs i = (List.enumFrom i xs.toList).flatMap (fun e =>
      match e.2 with
      | Doc.map kvs => kvs.toList.map fun q =>
          ((key ++ "[" ++ toString e.1 ++ "].") ++ pyReplaceSpace q.1, q.2)
      | d => [(key ++ "[" ++ toString e.1 ++ "]", d)])
  | .nil, i => by simp [seqChunk, DocList.toList]
  | .cons d tl, i => by
    cases d with
    | map kvs =>
      rw [seqChunk, DocList.toList, List.enumFrom_cons, List.flatMap_cons,
        seqChunk_enum key tl (i + 1), chunkPairs_toList]
    | str s =>
      rw [seqChunk, DocList.toList, List.enumFrom_cons, List.flatMap_cons,
        seqChunk_enum key tl (i + 1)]
      exact fun _ h => Doc.noConfusion h
    | int n =>
      rw [seqChunk, DocList.toList, List.enumFrom_cons, List.flatMap_cons,
        seqChunk_enum key tl (i + 1)]
      exact fun _ h => Doc.noConfusion h
    | bool b =>
      rw [seqChunk, DocList.toList, List.enumFrom_cons, List.flatMap_cons,
        seqChunk_enum key tl (i + 1)]
      exact fun _ h => Doc.noConfusion h
    | null =>
      rw [seqChunk, DocList.toList, List.enumFrom_cons, List.flatMap_cons,
        seqChunk_enum key tl (i + 1)]
      exact fun _ h => Doc.noConfusion h
    | seq ys =>
      rw [seqChunk, DocList.toList, List.enumFrom_cons, List.flatMap_cons,
        seqChunk_enum key tl (i + 1)]
      exact fun _ h => Doc.noConfusion h

/-- C2 (amended): for a sequence value, flatten emits — per element `i`
(1-based) — the element itself under `newKey[i]` when it is not a mapping,
and one entry `(newKey[i].subK_normalized, subV)` per pair when it is a
mapping, with the value `subV` taken unchanged and no recursion into it;
nested containers below a sequence-element mapping therefore stay whole
values. -/
theorem c2_seq_items_no_recursion (key sep2 : String) (xs : DocList) (i : Nat) :
    flattenVal (.seq xs) key sep2 = seqChunk key xs 1
    ∧ seqChunk key xs i = (List.enumFrom i xs.toList).flatMap (fun e =>
        match e.2 with
        | Doc.map kvs => kvs.toList.map fun q =>
            ((key ++ "[" ++ toString e.1 ++ "].") ++ pyReplaceSpace q.1, q.2)
        | d => [(key ++ "[" ++ toString e.1 ++ "]", d)]) :=
  ⟨rfl, seqChunk_enum key xs i⟩

/-- C2 (counterexample): flattening `{"a": [{"x": {"y": 1}}]}` yields the
single entry `a[1].x` whose value is the whole mapping — not a recursive
entry `a[1].x.y` with a scalar value. -/
theorem c2_nested_value_cx :
    (flattenYaml exNest).map Prod.fst = ["a[1].x"]
    ∧ (flattenYaml exNest).map (fun p => p.2.isContainer) = [true] := by
  exact ⟨by decide, by decide⟩

theorem digitChar_ne_space : ∀ n : Nat, Nat.digitChar n ≠ ' '
  | 0 => by decide
  | 1 => by decide
  | 2 => by decide
  | 3 => by decide
  | 4 => by decide
  | 5 => by decide
  | 6 => by decide
  | 7 => by decide
  | 8 => by decide
  | 9 => by decide
  | 10 => by decide
  | 11 => by decide
  | 12 => by decide
  | 13 => by decide
  | 14 => by decide
  | 15 => by decide
  | n + 16 => by
    unfold Nat.digitChar
    rw [if_neg (by omega : ¬(n + 16 = 0)), if_neg (by omega : ¬(n + 16 = 1)),
      if_neg (by omega : ¬(n + 16 = 2)), if_neg (by omega : ¬(n + 16 = 3)),
      if_neg (by omega : ¬(n + 16 = 4)), if_neg (by omega : ¬(n + 16 = 5)),
      if_neg (by omega : ¬(n + 16 = 6)), if_neg (by omega : ¬(n + 16 = 7)),
      if_neg (by omega : ¬(n + 16 = 8)), if_neg (by omega : ¬(n + 16 = 9)),
      if_neg (by omega : ¬(n + 16 = 10)), if_neg (by omega : ¬(n + 16 = 11)),
      if_neg (by omega : ¬(n + 16 = 12)), if_neg (by omega : ¬(n + 16 = 13)),
      if_neg (by omega : ¬(n + 16 = 14)), if_neg (by omega : ¬(n + 16 = 15))]
    decide

theorem toDigitsCore_ne_space (b : Nat) : ∀ (f n : Nat) (acc : List Char),
    (∀ c ∈ acc, c ≠ ' ') → ∀ c ∈ Nat.toDigitsCore b f n acc, c ≠ ' '
  | 0, n, acc, h => by
    intro c hc
    exact h c hc
  | f + 1, n, acc, h => by
    intro c hc
    rw [Nat.toDigitsCore] at hc
    have hstep : ∀ c2 ∈ (Nat.digitChar (n % b) :: acc), c2 ≠ ' ' := by
      intro c2 hc2
      rcases List.mem_cons.1 hc2 with h1 | h2
      · exact h1 ▸ digitChar_ne_space _
      · exact h c2 h2
    by_cases hz : n / b = 0
    · rw [if_pos hz] at hc
      exact hstep c hc
    · rw [if_neg hz] at hc
      exact toDigitsCore_ne_space b f (n / b) _ hstep c hc

theorem natToString_ne_space (n : Nat) : ∀ c ∈ (toString n).data, c ≠ ' ' := by
  intro c hc
  exact toDigitsCore_ne_space 10 (n + 1) n []
    (fun c2 hc2 => absurd hc2 (List.not_mem_nil c2)) c hc

theorem hasNoSpace_iff (s : String) : hasNoSpace s = true ↔ ∀ c ∈ s.data, c ≠ ' ' := by
  unfold hasNoSpace
  rw [List.all_eq_true]
  constructor
  · intro h c hc
    exact bne_iff_ne.1 (h c hc)
  · intro h c hc
    exact bne_iff_ne.2 (h c hc)

theorem hasNoSpace_append (a b : String) :
    hasNoSpace (a ++ b) = (hasNoSpace a && hasNoSpace b) := by
  unfold hasNoSpace
  rw [strData_append, List.all_append]

theorem hasNoSpace_replace (s : String) : hasNoSpace (pyReplaceSpace s) = true := by
  rw [hasNoSpace_iff]
  intro c hc
  obtain ⟨c0, _, he⟩ := List.mem_map.1 hc
  by_cases h0 : c0 = ' '
  · rw [h0] at he
    rw [← he]
    decide
  · rw [if_neg h0] at he
    exact he ▸ h0

theorem natToString_noSpace (n : Nat) : hasNoSpace (toString n) = true :=
  (hasNoSpace_iff _).2 (natToString_ne_space n)

theorem seqKey_noSpace (key : String) (i : Nat) (tail2 : String)
    (hk : hasNoSpace key = true) (ht : hasNoSpace tail2 = true) :
    hasNoSpace (key ++ "[" ++ toString i ++ tail2) = true := by
  rw [hasNoSpace_append, hasNoSpace_append, hasNoSpace_append, hk, natToString_noSpace, ht,
    show hasNoSpace "[" = true by decide]
  rfl

theorem pyUpd_keys_subset {α : Type} (d : List (String × α)) (k : String) (v : α) :
    ∀ k2 ∈ (pyUpd d k v).map Prod.fst, k2 ∈ d.map Prod.fst ∨ k2 = k := by
  intro k2 hk2
  by_cases hk : k ∈ d.map Prod.fst
  · rw [pyUpd_keys_mem d k v hk] at hk2
    exact Or.inl hk2
  · rw [pyUpd_keys_not_mem d k v hk] at hk2
    rcases List.mem_append.1 hk2 with h1 | h2
    · exact Or.inl h1
    · exact Or.inr (List.mem_singleton.1 h2)

theorem pyDictRun_keys_subset {α : Type} :
    ∀ (l acc : List (String × α)) (k2 : String),
    k2 ∈ ((l.foldl (fun a kv => pyUpd a kv.1 kv.2) acc).map Prod.fst) →
    k2 ∈ acc.map Prod.fst ∨ k2 ∈ l.map Prod.fst := by
  intro l
  induction l with
  | nil => intro acc k2 h; exact Or.inl h
  | cons hd tl ih =>
    intro acc k2 h
    rw [List.foldl_cons] at h
    rcases ih (pyUpd acc hd.1 hd.2) k2 h with h1 | h2
    · rcases pyUpd_keys_subset acc hd.1 hd.2 k2 h1 with ha | hb
      · exact Or.inl ha
      · exact Or.inr (hb ▸ List.mem_map_of_mem Prod.fst (List.mem_cons_self hd tl))
    · exact Or.inr (List.map_cons Prod.fst hd tl ▸ List.mem_cons_of_mem _ h2)

theorem pyDict_mem_keys {α : Type} (l : List (String × α)) (p : String × α)
    (hp : p ∈ pyDict l) : p.1 ∈ l.map Prod.fst := by
  rcases pyDictRun_keys_subset l [] p.1 (List.mem_map_of_mem Prod.fst hp) with h1 | h2
  · exact absurd h1 (by simp)
  · exact h2

theorem chunkPairs_noSpace (pre : String) (hp : hasNoSpace pre = true) :
    ∀ (kvs : DocPairs) (p : String × Doc), p ∈ chunkPairs pre kvs → hasNoSpace p.1 = true
  | .nil, p, hmem => absurd hmem (List.not_mem_nil p)
  | .cons k v tl, p, hmem => by
    rw [chunkPairs] at hmem
    rcases List.mem_cons.1 hmem with h1 | h2
    · rw [h1]
      show hasNoSpace (pre ++ pyReplaceSpace k) = true
      rw [hasNoSpace_append, hp, hasNoSpace_replace]
      rfl
    · exact chunkPairs_noSpace pre hp tl p h2

theorem seqChunk_noSpace (key : String) (hk : hasNoSpace key = true) :
    ∀ (xs : DocList) (i : Nat) (p : String × Doc), p ∈ seqChunk key xs i →
    hasNoSpace p.1 = true
  | .nil, i, p, hmem => absurd hmem (List.not_mem_nil p)
  | .cons d tl, i, p, hmem => by
    have htail : p ∈ seqChunk key tl (i + 1) → hasNoSpace p.1 = true :=
      seqChunk_noSpace key hk tl (i + 1) p
    cases d with
    | map kvs =>
      rw [seqChunk] at hmem
      rcases List.mem_append.1 hmem with h1 | h2
      · exact chunkPairs_noSpace _ (seqKey_noSpace key i "]." hk (by decide)) kvs p h1
      · exact htail h2
    | str s =>
      rw [seqChunk] at hmem
      rcases List.mem_append.1 hmem with h1 | h2
      · rw [List.mem_singleton.1 h1]
        exact seqKey_noSpace key i "]" hk (by decide)
      · exact htail h2
      exact fun _ h => Doc.noConfusion h
    | int n =>
      rw [seqChunk] at hmem
      rcases List.mem_append.1 hmem with h1 | h2
      · rw [List.mem_singleton.1 h1]
        exact seqKey_noSpace key i "]" hk (by decide)
      · exact htail h2
      exact fun _ h => Doc.noConfusion h
    | bool b =>
      rw [seqChunk] at hmem
      rcases List.mem_append.1 hmem with h1 | h2
      · rw [List.mem_singleton.1 h1]
        exact seqKey_noSpace key i "]" hk (by decide)
      · exact htail h2
      exact fun _ h => Doc.noConfusion h
    | null =>
      rw [seqChunk] at hmem
      rcases List.mem_append.1 hmem with h1 | h2
      · rw [List.mem_singleton.1 h1]
        exact seqKey_noSpace key i "]" hk (by decide)
      · exact htail h2
      exact fun _ h => Doc.noConfusion h
    | seq ys =>
      rw [seqChunk] at hmem
      rcases List.mem_append.1 hmem with h1 | h2
      · rw [List.mem_singleton.1 h1]
        exact seqKey_noSpace key i "]" hk (by decide)
      · exact htail h2
      exact fun _ h => Doc.noConfusion h

mutual
theorem flattenItems_noSpace : ∀ (kvs : DocPairs) (parent sp : String),
    hasNoSpace parent = true → hasNoSpace sp = true →
    ∀ p ∈ flattenItems kvs parent sp, hasNoSpace p.1 = true
  | .nil, parent, sp, _, _, p, hmem => by
    rw [flattenItems] at hmem
    exact absurd hmem (List.not_mem_nil p)
  | .cons k v tl, parent, sp, hp, hs, p, hmem => by
    simp only [flattenItems] at hmem
    have hnew : hasNoSpace (if parent = "" then pyReplaceSpace k
        else parent ++ sp ++ pyReplaceSpace k) = true := by
      by_cases hpe : parent = ""
      · rw [if_pos hpe]
        exact hasNoSpace_replace k
      · rw [if_neg hpe, hasNoSpace_append, hasNoSpace_append, hp, hs, hasNoSpace_replace]
        rfl
    rcases List.mem_append.1 hmem with h1 | h2
    · exact flattenVal_noSpace v _ sp hnew hs p h1
    · exact flattenItems_noSpace tl parent sp hp hs p h2

theorem flattenVal_noSpace : ∀ (v : Doc) (key sp : String),
    hasNoSpace key = true → hasNoSpace sp = true →
    ∀ p ∈ flattenVal v key sp, hasNoSpace p.1 = true
  | .map kvs, key, sp, hk, hs, p, hmem => by
    rw [flattenVal] at hmem
    have hkey := pyDict_mem_keys _ p hmem
    obtain ⟨q, hq, hqe⟩ := List.mem_map.1 hkey
    rw [← hqe]
    exact flattenItems_noSpace kvs key sp hk hs q hq
  | .seq xs, key, sp, hk, _, p, hmem => by
    rw [flattenVal] at hmem
    exact seqChunk_noSpace key hk xs 1 p hmem
  | .str s, key, sp, hk, _, p, hmem => by
    rw [flattenVal] at hmem
    rw [List.mem_singleton.1 hmem]
    · exact hk
    · exact fun _ h => Doc.noConfusion h
    · exact fun _ h => Doc.noConfusion h
  | .int n, key, sp, hk, _, p, hmem => by
    rw [flattenVal] at hmem
    rw [List.mem_singleton.1 hmem]
    · exact hk
    · exact fun _ h => Doc.noConfusion h
    · exact fun _ h => Doc.noConfusion h
  | .bool b, key, sp, hk, _, p, hmem => by
    rw [flattenVal] at hmem
    rw [List.mem_singleton.1 hmem]
    · exact hk
    · exact fun _ h => Doc.noConfusion h
    · exact fun _ h => Doc.noConfusion h
  | .null, key, sp, hk, _, p, hmem => by
    rw [flattenVal] at hmem
    rw [List.mem_singleton.1 hmem]
    · exact hk
    · exact fun _ h => Doc.noConfusion h
    · exact fun _ h => Doc.noConfusion h
end

/-- C7 (amended): every raw mapping key traversed by flatten has its space
characters (U+0020) replaced by `_` before path construction — a scalar
entry gets the key `pyReplaceSpace k`, and with the default prefix and
separator no flattened key contains a space at any depth; on `{"my key": 5}`
the result is the key `my_key` with value `5`.  Other whitespace (tabs,
newlines) is not normalized. -/
theorem c7_space_normalized (k : String) (v : Doc) (kvs : DocPairs)
    (hv : v.isScalar = true) :
    flattenYaml (.cons k v .nil) = [(pyReplaceSpace k, v)]
    ∧ (∀ p ∈ flattenYaml kvs, hasNoSpace p.1 = true)
    ∧ (flattenYaml (.cons "my key" (.int 5) .nil)).map Prod.fst = ["my_key"]
    ∧ (flattenYaml (.cons "my key" (.int 5) .nil)).map (fun p => pyStr p.2) = ["5"] := by
  refine ⟨?_, ?_, by decide, by decide⟩
  · cases v with
    | map kvs2 => exact absurd hv (by simp [Doc.isScalar])
    | seq xs => exact absurd hv (by simp [Doc.isScalar])
    | str s => rfl
    | int n => rfl
    | bool b => rfl
    | null => rfl
  · intro p hp
    unfold flattenYaml at hp
    have hkey := pyDict_mem_keys _ p hp
    obtain ⟨q, hq, hqe⟩ := List.mem_map.1 hkey
    rw [← hqe]
    exact flattenItems_noSpace kvs "" "." (by decide) (by decide) q hq

/-- C7 (witness): the normalization statement applied to the key
`my key`, the scalar value `5` and the example document `{"a": 1}`. -/
theorem c7_space_normalized_witness :
    Doc.isScalar (.int 5) = true
    ∧ (flattenYaml (.cons "my key" (.int 5) .nil) = [(pyReplaceSpace "my key", .int 5)]
       ∧ (∀ p ∈ flattenYaml exA, hasNoSpace p.1 = true)
       ∧ (flattenYaml (.cons "my key" (.int 5) .nil)).map Prod.fst = ["my_key"]
       ∧ (flattenYaml (.cons "my key" (.int 5) .nil)).map (fun p => pyStr p.2) = ["5"]) :=
  ⟨by decide, c7_space_normalized "my key" (.int 5) exA (by decide)⟩

/-- C7 (counterexample): a tab inside a raw key survives flattening — the
key of `{"a\tb": 1}` stays `a\tb` instead of becoming `a_b`, so general
whitespace is not normalized, only the space character is. -/
theorem c7_tab_not_normalized_cx :
    (flattenYaml (.cons "a\tb" (.int 1) .nil)).map Prod.fst = ["a\tb"]
    ∧ ("a\tb" : String) ≠ "a_b" := by
  exact ⟨by decide, by decide⟩

theorem newDictLoop_dict : ∀ (l full : List (String × Doc)) (i : Nat) (st : NewState),
    ((newDictLoop full l i st).1).yamlDictionary = st.yamlDictionary
  | [], _, _, _ => rfl
  | (k, v) :: rest, full, i, st => by
    rw [newDictLoop]
    simp only []
    rw [newDictLoop_dict rest full (i + 1) _]
    by_cases hn : (toString i ++ "_" ++ k) ∈ st.params <;> simp [hn]

theorem newPurge_dict (st : NewState) (valid : List String) :
    (newPurge st valid).yamlDictionary = st.yamlDictionary := rfl


theorem afterLoad_overwrites_list (dict : DocPairs) (yl : PyLD) (pms : List String)
    (pvs : List (String × Doc)) (sm f : String) (h : dict.isNil = false) :
    afterLoad ⟨dict, yl, pms, pvs, sm⟩ f
      = afterLoad ⟨dict, .dct (flattenYaml dict), pms, pvs, sm⟩ f := by
  cases dict with
  | nil => exact absurd h (by decide)
  | cons k0 v0 tl0 => rfl

theorem afterLoad_dct_run (dict : DocPairs) (kvs0 : List (String × Doc)) (pms : List String)
    (pvs : List (String × Doc)) (sm f : String) (h : dict.isNil = false) :
    (afterLoad ⟨dict, .dct kvs0, pms, pvs, sm⟩ f).2 = none
    ∧ ((afterLoad ⟨dict, .dct kvs0, pms, pvs, sm⟩ f).1).yamlDictionary = dict := by
  cases dict with
  | nil => exact absurd h (by decide)
  | cons k0 v0 tl0 =>
    constructor
    · rfl
    · exact (newPurge_dict _ _).trans (newDictLoop_dict _ _ 1 _)

/-- C9 (amended): `yaml_dictionary` is only overwritten by passes that load
a mapping document; a pass that loads a sequence leaves it unchanged, and —
while the stored mapping is non-empty — such a pass behaves exactly as if
the flattened stored mapping were the working list: its entire outcome is
independent of the loaded sequence, and it completes without error. -/
theorem c9_seq_pass_uses_stored_dict (st : NewState) (f : String) (L L2 : DocList)
    (h : st.yamlDictionary.isNil = false) :
    newPass st (some (.ok (.seq L))) f = newPass st (some (.ok (.seq L2))) f
    ∧ newPass st (some (.ok (.seq L))) f
        = afterLoad { st with yamlList := .dct (flattenYaml st.yamlDictionary) } f
    ∧ ((newPass st (some (.ok (.seq L))) f).1).yamlDictionary = st.yamlDictionary
    ∧ (newPass st (some (.ok (.seq L))) f).2 = none := by
  obtain ⟨dict, yl, pms, pvs, sm⟩ := st
  have hL : newPass ⟨dict, yl, pms, pvs, sm⟩ (some (.ok (.seq L))) f
      = afterLoad ⟨dict, .dct (flattenYaml dict), pms, pvs, sm⟩ f :=
    afterLoad_overwrites_list dict (.lst L) pms pvs sm f h
  have hL2 : newPass ⟨dict, yl, pms, pvs, sm⟩ (some (.ok (.seq L2))) f
      = afterLoad ⟨dict, .dct (flattenYaml dict), pms, pvs, sm⟩ f :=
    afterLoad_overwrites_list dict (.lst L2) pms pvs sm f h
  have hrun := afterLoad_dct_run dict (flattenYaml dict) pms pvs sm f h
  refine ⟨hL.trans hL2.symm, hL, ?_, ?_⟩
  · rw [hL]
    exact hrun.2
  · rw [hL]
    exact hrun.1

/-- C9 (counterexample): after a pass loads the non-empty mapping
`{"a": 1}`, a later pass that loads the empty mapping replaces the stored
`yaml_dictionary` with the empty dict — the field does not retain the
earlier mapping across all later passes. -/
theorem c9_dict_overwritten_cx :
    ((newPass initialNewState (some (.ok (.map exA))) "").1.yamlDictionary).isNil = false
    ∧ ((newPass (newPass initialNewState (some (.ok (.map exA))) "").1
        (some (.ok (.map .nil))) "").1.yamlDictionary).isNil = true := by
  exact ⟨by decide, by decide⟩

/-- C9 (witness): the amended statement at a state whose stored mapping is
`{"a": 1}`, with two different loaded sequences. -/
theorem c9_seq_pass_uses_stored_dict_witness :
    ({ initialNewState with yamlDictionary := exA } : NewState).yamlDictionary.isNil = false
    ∧ (newPass { initialNewState with yamlDictionary := exA }
          (some (.ok (.seq (.cons (.str "zzz") .nil)))) ""
        = newPass { initialNewState with yamlDictionary := exA } (some (.ok (.seq .nil))) ""
       ∧ newPass { initialNewState with yamlDictionary := exA }
          (some (.ok (.seq (.cons (.str "zzz") .nil)))) ""
        = afterLoad { { initialNewState with yamlDictionary := exA } with
            yamlList := .dct (flattenYaml ({ initialNewState with
              yamlDictionary := exA } : NewState).yamlDictionary) } ""
       ∧ ((newPass { initialNewState with yamlDictionary := exA }
          (some (.ok (.seq (.cons (.str "zzz") .nil)))) "").1).yamlDictionary
        = ({ initialNewState with yamlDictionary := exA } : NewState).yamlDictionary
       ∧ (newPass { initialNewState with yamlDictionary := exA }
          (some (.ok (.seq (.cons (.str "zzz") .nil)))) "").2 = none) :=
  ⟨by decide, c9_seq_pass_uses_stored_dict { initialNewState with yamlDictionary := exA }
    "" (.cons (.str "zzz") .nil) .nil (by decide)⟩

theorem pyListIndex_err_kind (full : DocList) (d : Doc) (e : PyErr)
    (h : pyListIndex full d = .error e) : e.isLoopErr = true := by
  cases d with
  | int n =>
    rw [pyListIndex] at h
    split_ifs at h
    injection h with he
    rw [← he]
    rfl
  | bool b =>
    rw [pyListIndex] at h
    split_ifs at h
    injection h with he
    rw [← he]
    rfl
  | str s =>
    injection h with he
    rw [← he]
    rfl
  | null =>
    injection h with he
    rw [← he]
    rfl
  | seq xs =>
    injection h with he
    rw [← he]
    rfl
  | map kvs =>
    injection h with he
    rw [← he]
    rfl

theorem pyListIndex_ok_idx (full : DocList) (d : Doc) (v : Doc)
    (h : pyListIndex full d = .ok v) : d.isIndexLike = true := by
  cases d with
  | int n => rfl
  | bool b => rfl
  | str s => exact absurd h (by intro hc; exact Except.noConfusion hc)
  | null => exact absurd h (by intro hc; exact Except.noConfusion hc)
  | seq xs => exact absurd h (by intro hc; exact Except.noConfusion hc)
  | map kvs => exact absurd h (by intro hc; exact Except.noConfusion hc)

theorem newListLoop_err : ∀ (xs full : DocList) (i : Nat) (st : NewState),
    hasNonIndex xs = true →
    ∃ e, (newListLoop full xs i st).2.2 = some e ∧ e.isLoopErr = true
  | .nil, full, i, st, h => by
    rw [hasNonIndex] at h
    exact absurd h (by decide)
  | .cons d tl, full, i, st, h => by
    rw [newListLoop]
    simp only []
    cases hidx : pyListIndex full d with
    | error e =>
      exact ⟨e, rfl, pyListIndex_err_kind full d e hidx⟩
    | ok v =>
      have hd := pyListIndex_ok_idx full d v hidx
      have htl : hasNonIndex tl = true := by
        rw [hasNonIndex, hd] at h
        simpa using h
      exact newListLoop_err tl full (i + 1) _ htl

/-- C10 (amended): a pass of `NEW_YAMLLoaderNode` over a sequence root —
with no stored mapping and an empty filter — indexes the list by its own
elements, so whenever the sequence contains an element that is not usable
as an index (not an integer or boolean) the pass raises an exception
before completing, and that exception is a `TypeError` or an
`IndexError`. -/
theorem c10_list_pass_raises (st : NewState) (xs : DocList)
    (h1 : st.yamlDictionary.isNil = true) (h2 : hasNonIndex xs = true) :
    ∃ e, (newPass st (some (.ok (.seq xs))) "").2 = some e ∧ e.isLoopErr = true := by
  obtain ⟨dict, yl, pms, pvs, sm⟩ := st
  cases dict with
  | cons k0 v0 tl0 => exact Bool.noConfusion h1
  | nil =>
    obtain ⟨e, he1, he2⟩ := newListLoop_err xs xs 1
      ⟨.nil, .lst xs, pms, pyUpd pvs "yaml_data" (.str (yamlDumpLD (.lst xs))), sm⟩ h2
    refine ⟨e, ?_, he2⟩
    show (afterLoad ⟨.nil, .lst xs, pms, pvs, sm⟩ "").2 = some e
    simp only [afterLoad, DocPairs.isNil, eq_self_iff_true, if_true]
    rw [he1]

/-- C10 (counterexample): the sequence `[5, "a"]` contains the non-integer
element `"a"`, yet the pass raises `IndexError` — not `TypeError` — because
the in-range check on the first element `5` fails before the non-integer
element is reached. -/
theorem c10_index_error_cx :
    (newPass initialNewState
        (some (.ok (.seq (.cons (.int 5) (.cons (.str "a") .nil))))) "").2
      = some (.indexError "list index out of range")
    ∧ ∀ m : String,
        some (PyErr.indexError "list index out of range") ≠ some (PyErr.typeError m) := by
  refine ⟨by decide, ?_⟩
  intro m h
  exact PyErr.noConfusion (Option.some.inj h)

/-- C10 (witness): the amended statement at the fresh node and the
single-element sequence `["a"]`, which raises a loop error (a TypeError). -/
theorem c10_list_pass_raises_witness :
    (initialNewState.yamlDictionary.isNil = true
      ∧ hasNonIndex (.cons (.str "a") .nil) = true)
    ∧ ∃ e, (newPass initialNewState (some (.ok (.seq (.cons (.str "a") .nil)))) "").2
        = some e ∧ e.isLoopErr = true :=
  ⟨⟨by decide, by decide⟩,
   c10_list_pass_raises initialNewState (.cons (.str "a") .nil) (by decide) (by decide)⟩
